import Mathlib

/-!
Verification development for the telingo temporal ASP front end.

The definitions below are a shallow embedding of the Python sources:

* `src/telingo/theory/formula.py` — operator tables, `create_symbol`,
  `create_number`, `make_equal`, `make_disjunction`;
* `src/telingo/theory/body.py` — the body formula classes and
  `create_atom` / `create_formula` plus the backend translation;
* `src/telingo/theory/__init__.py` — the formula registry (`Theory`);
* `src/telingo/transformers/term.py` — `TermTransformer.__get_param`;
* `src/telingo/transformers/program.py` — `ProgramTransformer.visit_Program`;
* `src/telingo/transformers/head.py` — `HeadTransformer.transform`;
* `src/telingo/__init__.py` — the incremental driver `imain`.

Machine integers are modelled as `Int`/`Nat` (Python integers have
arbitrary precision, so there is no overflow to model), fallible code
returns `Except String` mirroring the `RuntimeError`/`AssertionError`
raise sites, and the mutable objects (backend, step data, registries)
are threaded as explicit state records.  Recursive Python functions are
embedded with an explicit recursion-depth budget (first argument); the
budget only produces the distinguished `"recursion limit"` error and
every theorem below accounts for it explicitly, so no behaviour of the
source is hidden by it.
-/

set_option autoImplicit false

/-- Character with code 39, the ASCII prime (single quote) used by telingo
to mark previous/next shifts in predicate names. -/
def primeChar : Char := Char.ofNat 39

/-- One-character string holding `primeChar`. -/
def primeStr : String := String.mk [primeChar]

mutual

/-- Embedding of `clingo.Symbol`: numbers, strings, `#inf`, `#sup` and
(classically signed) functions.  Constants are functions without
arguments, tuples are functions with empty name.  The argument list is
the sibling type `GSymList` so that all recursion over symbols is
structural. -/
inductive GSym where
  | num (n : Int)
  | str (s : String)
  | inf
  | sup
  | func (name : String) (args : GSymList) (positive : Bool)

/-- Lists of ground symbols (argument lists of `GSym.func`). -/
inductive GSymList where
  | nil
  | cons (head : GSym) (tail : GSymList)

end

mutual

/-- Structural equality test for ground symbols. -/
def GSym.beq : GSym → GSym → Bool
  | .num a, .num b => a == b
  | .str a, .str b => a == b
  | .inf, .inf => true
  | .sup, .sup => true
  | .func n₁ a₁ p₁, .func n₂ a₂ p₂ => n₁ == n₂ && p₁ == p₂ && GSymList.beq a₁ a₂
  | _, _ => false

/-- Pointwise equality test for symbol lists. -/
def GSymList.beq : GSymList → GSymList → Bool
  | .nil, .nil => true
  | .cons x xs, .cons y ys => GSym.beq x y && GSymList.beq xs ys
  | _, _ => false

end

instance : BEq GSym := ⟨GSym.beq⟩

/-- Conversion from ordinary lists of symbols. -/
def GSymList.ofList : List GSym → GSymList
  | [] => .nil
  | x :: xs => .cons x (GSymList.ofList xs)

/-- Appending of symbol argument lists. -/
def GSymList.append : GSymList → GSymList → GSymList
  | .nil, ys => ys
  | .cons x xs, ys => .cons x (GSymList.append xs ys)

/-- Emptiness test for symbol argument lists. -/
def GSymList.isEmpty : GSymList → Bool
  | .nil => true
  | .cons _ _ => false

/-- Comma-separated rendering of a list of strings. -/
def commaJoin : List String → String
  | [] => ""
  | [x] => x
  | x :: xs => x ++ "," ++ commaJoin xs

mutual

/-- String rendering of a symbol, following clingo printing: numbers in
decimal, strings quoted, signed functions with parenthesised argument
lists (omitted when empty). -/
def symStr : GSym → String
  | .num n => toString n
  | .str s => "\"" ++ s ++ "\""
  | .inf => "#inf"
  | .sup => "#sup"
  | .func name args positive =>
      (if positive then "" else "-") ++ name ++
        (if args.isEmpty then "" else "(" ++ commaJoin (symStrList args) ++ ")")

/-- String rendering of each symbol in an argument list. -/
def symStrList : GSymList → List String
  | .nil => []
  | .cons x xs => symStr x :: symStrList xs

end

/-- Embedding of `clingo.TheoryTerm` (the `TheoryTermType` variants:
Number, Symbol, Function, Tuple, List, Set). -/
inductive TheoryTerm where
  | num (n : Int)
  | sym (name : String)
  | fn (name : String) (args : List TheoryTerm)
  | tup (args : List TheoryTerm)
  | lst (args : List TheoryTerm)
  | set (args : List TheoryTerm)

/-- Map from binary Boolean connective strings to their ids
(`g_binary_operators` in theory/formula.py). -/
def gBinaryOps : List String := ["&", "|", "<>", "<-", "->"]

/-- Set of unary Boolean operators (`g_unary_operators`). -/
def gUnaryOps : List String := ["~"]

/-- Set of binary arithmetic operators (`g_arithmetic_operators`). -/
def gArithOps : List String := ["+", "-"]

/-- Set of temporal connectives (`g_tel_operators`). -/
def gTelOps : List String :=
  ["<", ">", "<:", ">:", "<*", ">*", ">?", "<?", ">>", "<<", "<;", "<:;", ";>", ";>:"]

/-- Set of dynamic connectives (`g_del_operators`). -/
def gDelOps : List String := [".>*", ".>?"]

/-- Set of unary path operators (`g_path_unary_operators`). -/
def gPathUnaryOps : List String := ["*", "?"]

/-- Set of binary path operators (`g_path_binary_operators`). -/
def gPathBinaryOps : List String := [";;", "+"]

/-- Union of all operator sets (`g_all_operators`). -/
def gAllOps : List String :=
  gBinaryOps ++ gUnaryOps ++ gArithOps ++ gTelOps ++ gDelOps ++
    gPathUnaryOps ++ gPathBinaryOps

/-- Structural prefix test on character lists (kernel-reducible
replacement for `String.startsWith`, which Lean defines by well-founded
recursion on byte positions). -/
def charListPre : List Char → List Char → Bool
  | [], _ => true
  | _ :: _, [] => false
  | c :: cs, d :: ds => c == d && charListPre cs ds

/-- Python `str.startswith`. -/
def strStarts (s pre : String) : Bool := charListPre pre.data s.data

/-- Python `str.endswith`. -/
def strEnds (s suffix : String) : Bool := charListPre suffix.data.reverse s.data.reverse

/-- Error value used when the recursion-depth budget runs out; it does not
correspond to any behaviour of the Python source, which recurses without
an explicit bound. -/
def fuelErr {α : Type} : Except String α := .error "recursion limit"

/-- Embedding of `create_number` (theory/formula.py): evaluates a theory
term to a number, accepting unary minus, binary plus/minus and
non-negative number leaves; anything else raises `"number expected"`. -/
def createNumber : Nat → TheoryTerm → Except String Int
  | 0, _ => fuelErr
  | fuel + 1, rep =>
      match rep with
      | .fn "-" [a] => do
          let n ← createNumber fuel a
          pure (-n)
      | .fn name [a, b] =>
          if name ∈ gArithOps then do
            let lhs ← createNumber fuel a
            let rhs ← createNumber fuel b
            if name = "+" then pure (lhs + rhs) else pure (lhs - rhs)
          else .error "number expected"
      | .num n => if n ≥ 0 then .ok n else .error "number expected"
      | _ => .error "number expected"

/-- Embedding of `create_symbol` (theory/formula.py): lowers a theory
term to a concrete symbol, rejecting lists, sets and operator names. -/
def createSymbol : Nat → TheoryTerm → Except String GSym
  | 0, _ => fuelErr
  | fuel + 1, rep =>
      match rep with
      | .num n => .ok (.num n)
      | .lst _ => .error "invalid symbol"
      | .set _ => .error "invalid symbol"
      | .fn "-" [a] => do
          let rhs ← createSymbol fuel a
          match rhs with
          | .num m => pure (.num (-m))
          | .func fname fargs fpos => pure (.func fname fargs (!fpos))
          | _ => .error "invalid symbol"
      | .fn name args =>
          if name ∈ gArithOps then
            match args with
            | [a, b] => do
                let n ← createNumber (fuel + 1) (.fn name [a, b])
                pure (.num n)
            | _ => .error "invalid symbol"
          else
            if name ∈ gBinaryOps ∨ name ∈ gUnaryOps ∨ name ∈ gTelOps then
              .error "invalid symbol"
            else
              if args.isEmpty then
                if name = "#inf" then .ok .inf
                else if name = "#sup" then .ok .sup
                else if name.length > 1 ∧ strStarts name "\"" = true ∧ strEnds name "\"" = true then
                  .ok (.str ((name.drop 1).dropRight 1))
                else .ok (.func name .nil true)
              else do
                let syms ← args.mapM (createSymbol fuel)
                pure (.func name (GSymList.ofList syms) true)
      | .sym name =>
          if name ∈ gBinaryOps ∨ name ∈ gUnaryOps ∨ name ∈ gTelOps then
            .error "invalid symbol"
          else
            if name = "#inf" then .ok .inf
            else if name = "#sup" then .ok .sup
            else if name.length > 1 ∧ strStarts name "\"" = true ∧ strEnds name "\"" = true then
              .ok (.str ((name.drop 1).dropRight 1))
            else .ok (.func name .nil true)
      | .tup args => do
          let syms ← args.mapM (createSymbol fuel)
          pure (.func "" (GSymList.ofList syms) true)

mutual

/-- Embedding of the body formula classes of theory/body.py: `Atom`,
`NumericLiteral`, `BooleanConstant`, `Negation`, `BooleanFormula`,
`Previous`, `Initially`, `Next`, `TelFormulaP` (since/trigger) and
`TelFormulaN` (until/release).  The Python `TelFormulaN` object carries a
`__future` reference, set by `set_future` at every construction site to
`Next(self, 1, weak)` with `weak = (op == ">*")`; since that reference is
cyclic, the embedding leaves it implicit and rebuilds it during
translation from the same rule. -/
inductive BF where
  | atom (name : String) (args : GSymList) (positive : Bool)
  | numLit (lit : Int)
  | boolConst (value : Bool)
  | neg (arg : BF)
  | boolOp (op : String) (lhs rhs : BF)
  | prev (arg : BF) (n : Nat) (weak : Bool)
  | initially (arg : BF)
  | next (arg : BF) (n : Nat) (weak : Bool)
  | telP (op : String) (lhs : OBF) (rhs : BF)
  | telN (op : String) (lhs : OBF) (rhs : BF)

/-- Optional left-hand side of a since/trigger/until/release formula
(`None` selects the eventually/always flavour). -/
inductive OBF where
  | none
  | some (f : BF)

end

mutual

/-- String form of the unique representation `_rep` built by each
`__init__` in theory/body.py.  A `NumericLiteral` stores the literal
itself as its representation; when embedded in the representation of an
enclosing formula the Python string formatting prints it in decimal,
which is what this function returns. -/
def BF.repStr : BF → String
  | .atom name args positive =>
      "(" ++ (if positive then "" else "-") ++ name ++ "(" ++
        commaJoin (symStrList args) ++ "))"
  | .numLit l => toString l
  | .boolConst v => if v then "(&true)" else "(&false)"
  | .neg a => "(~" ++ a.repStr ++ ")"
  | .boolOp op l r => "(" ++ l.repStr ++ op ++ r.repStr ++ ")"
  | .prev a n weak => "(" ++ toString n ++ (if weak then "<:" else "<") ++ a.repStr ++ ")"
  | .initially a => "(<<" ++ a.repStr ++ ")"
  | .next a n weak => "(" ++ toString n ++ (if weak then ">:" else ">") ++ a.repStr ++ ")"
  | .telP op lhs rhs => "(" ++ OBF.repStr lhs ++ op ++ rhs.repStr ++ ")"
  | .telN op lhs rhs => "(" ++ OBF.repStr lhs ++ op ++ rhs.repStr ++ ")"

/-- String form of an optional left-hand side: absent sides print as the
empty string. -/
def OBF.repStr : OBF → String
  | .none => ""
  | .some f => f.repStr

end

/-- Registry keys: the `_rep` of a formula is either a Python int (for
`NumericLiteral`) or a string (for every other body formula). -/
inductive FRep where
  | ofInt (n : Int)
  | ofStr (s : String)
deriving DecidableEq, Repr

/-- Unique representation of a body formula as stored in the `Theory`
registry (`_rep` in the source). -/
def BF.rep : BF → FRep
  | .numLit l => .ofInt l
  | f => .ofStr f.repStr

mutual

/-- Test that every `Atom` inside a formula has a name without leading or
trailing primes. -/
def BF.primeFreeAtoms : BF → Bool
  | .atom name _ _ => !(strStarts name primeStr) && !(strEnds name primeStr)
  | .numLit _ => true
  | .boolConst _ => true
  | .neg a => a.primeFreeAtoms
  | .boolOp _ l r => l.primeFreeAtoms && r.primeFreeAtoms
  | .prev a _ _ => a.primeFreeAtoms
  | .initially a => a.primeFreeAtoms
  | .next a _ _ => a.primeFreeAtoms
  | .telP _ lhs rhs => OBF.primeFreeAtoms lhs && rhs.primeFreeAtoms
  | .telN _ lhs rhs => OBF.primeFreeAtoms lhs && rhs.primeFreeAtoms

/-- Prime-freeness for an optional left-hand side. -/
def OBF.primeFreeAtoms : OBF → Bool
  | .none => true
  | .some f => f.primeFreeAtoms

end

/-- Embedding of `Atom.__init__` (theory/body.py lines 125-139): a name
still starting with a prime raises `"temporal formulas use < instead of
leading primes"`, a name still ending with one raises `"temporal
formulas use > instead of trailing primes"`. -/
def mkAtom (name : String) (args : GSymList) (positive : Bool) : Except String BF :=
  if strStarts name primeStr then
    .error "temporal formulas use < instead of leading primes"
  else if strEnds name primeStr then
    .error "temporal formulas use > instead of trailing primes"
  else .ok (.atom name args positive)

/-- Embedding of `Previous.__init__` with its `assert(n > 0)` guard. -/
def mkPrev (arg : BF) (n : Int) (weak : Bool) : Except String BF :=
  if 0 < n then .ok (.prev arg n.toNat weak) else .error "assertion failure: n > 0"

/-- Embedding of `Next.__init__` with its `assert(n > 0)` guard. -/
def mkNext (arg : BF) (n : Int) (weak : Bool) : Except String BF :=
  if 0 < n then .ok (.next arg n.toNat weak) else .error "assertion failure: n > 0"

/-- Embedding of `create_atom` (theory/body.py): symbols become atoms,
unary minus toggles the classical sign, and any operator name is
rejected. -/
def createAtom : Nat → TheoryTerm → Bool → Except String BF
  | 0, _, _ => fuelErr
  | fuel + 1, rep, positive =>
      match rep with
      | .sym name => mkAtom name .nil positive
      | .fn name args =>
          if name = "-" ∧ args.length = 1 then
            match args with
            | [a] => createAtom fuel a (!positive)
            | _ => .error "invalid atom"
          else if name ∈ gAllOps then .error "invalid atom"
          else do
            let syms ← args.mapM (createSymbol (fuel + 1))
            mkAtom name (GSymList.ofList syms) positive
      | _ => .error "invalid atom"

/-- Tail of the `g_tel_operators` branch of `create_formula`: given the
already-translated left- and right-hand sides, build the formula for the
sequence, since, trigger, initially, until, release and finally
operators.  Factored out of `createFormula` because it does not recurse. -/
def telOpCombine (name : String) (lhs : OBF) (rhs : BF) : Except String BF :=
  if name = "<;" ∨ name = "<:;" then
    match lhs with
    | OBF.some l => do
        let p ← mkPrev l 1 (name = "<:;")
        pure (.boolOp "&" p rhs)
    | OBF.none => .error "attribute error: operand is None"
  else if name = "<*" then pure (.telP "<*" lhs rhs)
  else if name = "<?" then pure (.telP "<?" lhs rhs)
  else if name = "<<" then pure (.initially rhs)
  else if name = ";>" ∨ name = ";>:" then
    match lhs with
    | OBF.some l => do
        let nx ← mkNext rhs 1 (name = ";>:")
        pure (.boolOp "&" l nx)
    | OBF.none => .error "attribute error: operand is None"
  else if name = ">*" then pure (.telN ">*" lhs rhs)
  else if name = ">?" then pure (.telN ">?" lhs rhs)
  else if name = ">>" then do
    let fin ← mkAtom "__final" .nil true
    pure (.telN ">*" OBF.none (.boolOp "|" (.neg fin) rhs))
  else .error "unreachable temporal operator"

/-- Embedding of `create_formula` (theory/body.py lines 839-908),
translating a ground theory term into a body formula.  The interning
callback `add_formula` of the source returns the registry entry with the
same `_rep`, which is structurally equal to its argument, so on the level
of values it is the identity and is omitted here. -/
def createFormula : Nat → TheoryTerm → Except String BF
  | 0, _ => fuelErr
  | fuel + 1, rep =>
      match rep with
      | .sym _ => createAtom (fuel + 1) rep true
      | .fn name args =>
          if name ∈ gBinaryOps ∧ args.length = 2 then
            match args with
            | [a, b] => do
                let lhs ← createFormula fuel a
                let rhs ← createFormula fuel b
                pure (.boolOp name lhs rhs)
            | _ => .error "invalid temporal formula"
          else if name ∈ gUnaryOps ∧ args.length = 1 then
            match args with
            | [a] => do
                let arg ← createFormula fuel a
                pure (.neg arg)
            | _ => .error "invalid temporal formula"
          else if name ∈ gTelOps then
            match args.getLast? with
            | Option.none => .error "index out of range"
            | Option.some last => do
                let rhs ← createFormula fuel last
                if name = "<" ∨ name = "<:" then do
                  let lhs ← (match args with
                             | [_] => pure (1 : Int)
                             | a0 :: _ => createNumber (fuel + 1) a0
                             | [] => .error "index out of range")
                  if lhs = 0 then pure rhs else mkPrev rhs lhs (name = "<:")
                else if name = ">" ∨ name = ">:" then do
                  let lhs ← (match args with
                             | [_] => pure (1 : Int)
                             | a0 :: _ => createNumber (fuel + 1) a0
                             | [] => .error "index out of range")
                  if lhs = 0 then pure rhs else mkNext rhs lhs (name = ">:")
                else do
                  let lhs ← (match args with
                             | [_] => pure OBF.none
                             | a0 :: _ => do
                                 let l ← createFormula fuel a0
                                 pure (OBF.some l)
                             | [] => .error "index out of range")
                  telOpCombine name lhs rhs
          else if name = "&" then
            match args.head? with
            | Option.none => .error "index out of range"
            | Option.some (.sym aname) =>
                if aname = "initial" ∨ aname = "final" then
                  mkAtom ("__" ++ aname) .nil true
                else if aname = "true" ∨ aname = "false" then
                  pure (.boolConst (aname = "true"))
                else .error "unknown identifier"
            | Option.some _ => .error "invalid temporal formula"
          else createAtom (fuel + 1) rep true
      | _ => .error "invalid temporal formula"

/-- C10: a zero-fold next or previous operator is the identity: for theory
terms of form `0 > f`, `0 >: f`, `0 < f`, or `0 <: f`, `create_formula`
returns exactly the formula created for `f` itself, with no `Next` or
`Previous` node wrapped around it.  The recursion budget on the right is
the budget left for the subterm `f` on the left. -/
theorem zeroFoldNextPrevIdentity (fuel : Nat) (f : TheoryTerm) :
    createFormula (fuel + 1) (.fn ">" [.num 0, f]) = createFormula fuel f ∧
    createFormula (fuel + 1) (.fn ">:" [.num 0, f]) = createFormula fuel f ∧
    createFormula (fuel + 1) (.fn "<" [.num 0, f]) = createFormula fuel f ∧
    createFormula (fuel + 1) (.fn "<:" [.num 0, f]) = createFormula fuel f := by
  refine ⟨?_, ?_, ?_, ?_⟩ <;>
    · simp only [createFormula]
      cases h : createFormula fuel f <;>
        simp [h, createNumber, bind, Except.bind, pure, Except.pure,
          gBinaryOps, gUnaryOps, gTelOps]

/-- Unfolding of `create_formula` on a finally term `>> a`. -/
theorem cfStepFinally (n : Nat) (a : TheoryTerm) :
    createFormula (n + 1) (.fn ">>" [a]) =
      (createFormula n a).bind (fun rhs =>
        Except.ok (.telN ">*" OBF.none (.boolOp "|" (.neg (.atom "__final" .nil true)) rhs))) := rfl

/-- Unfolding of `create_formula` on a unary always-plus term `>* t`. -/
theorem cfStepAlwaysPlus (n : Nat) (t : TheoryTerm) :
    createFormula (n + 1) (.fn ">*" [t]) =
      (createFormula n t).bind (fun rhs => Except.ok (.telN ">*" OBF.none rhs)) := rfl

/-- Unfolding of `create_formula` on a disjunction. -/
theorem cfStepOr (n : Nat) (x y : TheoryTerm) :
    createFormula (n + 1) (.fn "|" [x, y]) =
      (createFormula n x).bind (fun l =>
        (createFormula n y).bind (fun r => Except.ok (.boolOp "|" l r))) := rfl

/-- Unfolding of `create_formula` on a negation. -/
theorem cfStepNeg (n : Nat) (x : TheoryTerm) :
    createFormula (n + 1) (.fn "~" [x]) =
      (createFormula n x).bind (fun g => Except.ok (.neg g)) := rfl

/-- Unfolding of `create_formula` on the keyword `&final`. -/
theorem cfFinalKeyword (n : Nat) :
    createFormula (n + 1) (.fn "&" [.sym "final"]) = .ok (.atom "__final" .nil true) := rfl

/-- C5: creating the body formula for the finally operator `>> a` yields
exactly the release formula with empty left-hand side over the
disjunction of the negated `__final` atom and `a` (with the same implicit
weak `Next` auxiliary, encoded by the operator id `>*` of the resulting
`TelFormulaN`).  The recursion budgets differ by one because the
explicitly spelled right-hand term nests the subterm `a` one level
deeper. -/
theorem finallyIsRelease (fuel : Nat) (a : TheoryTerm) :
    createFormula (fuel + 1 + 1 + 1) (.fn ">>" [a]) =
      createFormula (fuel + 1 + 1 + 1 + 1)
        (.fn ">*" [.fn "|" [.fn "~" [.fn "&" [.sym "final"]], a]]) := by
  rw [cfStepFinally, cfStepAlwaysPlus, cfStepOr, cfStepNeg, cfFinalKeyword]
  cases h : createFormula (fuel + 1 + 1) a <;> simp [h, Except.bind]

/-- Inversion for the Except monad bind. -/
theorem exceptBindOk {ε α β : Type} {x : Except ε α} {g : α → Except ε β} {b : β}
    (h : x.bind g = .ok b) : ∃ a, x = .ok a ∧ g a = .ok b := by
  cases x with
  | error e => simp [Except.bind] at h
  | ok a => exact ⟨a, rfl, by simpa [Except.bind] using h⟩

/-- Inversion for `mkAtom`: a successful construction implies that the
prime checks failed and the result is the corresponding atom. -/
theorem mkAtomOk {name : String} {args : GSymList} {positive : Bool} {f : BF}
    (h : mkAtom name args positive = .ok f) :
    f = .atom name args positive ∧
      strStarts name primeStr = false ∧ strEnds name primeStr = false := by
  unfold mkAtom at h
  split at h
  · exact absurd h (by simp)
  · split at h
    · exact absurd h (by simp)
    · injection h with h
      simp_all

/-- Inversion for `mkPrev`. -/
theorem mkPrevOk {arg : BF} {n : Int} {weak : Bool} {f : BF}
    (h : mkPrev arg n weak = .ok f) : f = .prev arg n.toNat weak := by
  unfold mkPrev at h
  split at h
  · injection h with h; exact h.symm
  · exact absurd h (by simp)

/-- Inversion for `mkNext`. -/
theorem mkNextOk {arg : BF} {n : Int} {weak : Bool} {f : BF}
    (h : mkNext arg n weak = .ok f) : f = .next arg n.toNat weak := by
  unfold mkNext at h
  split at h
  · injection h with h; exact h.symm
  · exact absurd h (by simp)

/-- Every atom produced by `create_atom` passed the prime checks of the
`Atom` constructor. -/
theorem createAtomPrimeFree :
    ∀ fuel t positive f, createAtom fuel t positive = .ok f → f.primeFreeAtoms = true := by
  intro fuel
  induction fuel with
  | zero => intro t positive f h; simp [createAtom, fuelErr] at h
  | succ fuel ih =>
      intro t positive f h
      cases t with
      | sym name =>
          simp only [createAtom] at h
          obtain ⟨hf, h1, h2⟩ := mkAtomOk h
          subst hf
          simp [BF.primeFreeAtoms, h1, h2]
      | fn name args =>
          simp only [createAtom] at h
          split at h
          · split at h
            · exact ih _ _ _ h
            · exact absurd h (by simp)
          · split at h
            · exact absurd h (by simp)
            · obtain ⟨syms, hsyms, hmk⟩ := exceptBindOk h
              obtain ⟨hf, h1, h2⟩ := mkAtomOk hmk
              subst hf
              simp [BF.primeFreeAtoms, h1, h2]
      | num n => simp [createAtom] at h
      | tup as => simp [createAtom] at h
      | lst as => simp [createAtom] at h
      | set as => simp [createAtom] at h

/-- Reduction of the Except monad bind on an error value. -/
@[simp] theorem exBindErr {ε α β : Type} (e : ε) (g : α → Except ε β) :
    (Except.error e : Except ε α) >>= g = Except.error e := rfl

/-- Reduction of the Except monad bind on a success value. -/
@[simp] theorem exBindOk {ε α β : Type} (a : α) (g : α → Except ε β) :
    (Except.ok a : Except ε α) >>= g = g a := rfl

/-- Reduction of the Except functor map on an error value. -/
@[simp] theorem exMapErr {ε α β : Type} (e : ε) (g : α → β) :
    g <$> (Except.error e : Except ε α) = Except.error e := rfl

/-- Reduction of the Except functor map on a success value. -/
@[simp] theorem exMapOk {ε α β : Type} (a : α) (g : α → β) :
    g <$> (Except.ok a : Except ε α) = Except.ok (g a) := rfl

/-- Reduction of pure in the Except monad. -/
@[simp] theorem exPure {ε α : Type} (a : α) :
    (pure a : Except ε α) = Except.ok a := rfl

/-- Prime-freeness is preserved by the non-recursive tail of the
temporal-operator branch of `create_formula`. -/
theorem telOpCombinePrimeFree {name : String} {lhs : OBF} {rhs : BF} {f : BF}
    (h : telOpCombine name lhs rhs = .ok f)
    (hl : OBF.primeFreeAtoms lhs = true) (hr : rhs.primeFreeAtoms = true) :
    f.primeFreeAtoms = true := by
  unfold telOpCombine at h
  repeat' split at h
  all_goals try simp only [mkPrev, mkNext, mkAtom, exBindOk, exBindErr, exPure] at h
  all_goals repeat' split at h
  all_goals try exact Except.noConfusion h
  all_goals injection h with h
  all_goals subst h
  all_goals simp_all [BF.primeFreeAtoms, OBF.primeFreeAtoms]

set_option maxHeartbeats 1000000 in
theorem createFormulaPrimeFree :
    ∀ fuel t f, createFormula fuel t = .ok f → f.primeFreeAtoms = true := by
  intro fuel
  induction fuel with
  | zero => intro t f h; simp [createFormula, fuelErr] at h
  | succ fuel ih =>
      intro t f h
      cases t with
      | sym name => exact createAtomPrimeFree _ _ _ _ (by simpa [createFormula] using h)
      | fn name args =>
          simp only [createFormula] at h
          by_cases hb : name ∈ gBinaryOps ∧ args.length = 2
          · rw [if_pos hb] at h
            obtain ⟨a, b, rfl⟩ : ∃ a b, args = [a, b] := by
              match args, hb.2 with
              | [a, b], _ => exact ⟨a, b, rfl⟩
            dsimp only at h
            cases hA : createFormula fuel a with
            | error e => simp [hA] at h
            | ok va =>
                cases hB : createFormula fuel b with
                | error e => simp [hA, hB] at h
                | ok vb =>
                    simp only [hA, hB, exBindOk, exMapOk, exPure] at h
                    injection h with h
                    subst h
                    simp only [BF.primeFreeAtoms, Bool.and_eq_true]
                    exact ⟨ih _ _ hA, ih _ _ hB⟩
          · rw [if_neg hb] at h
            by_cases hu : name ∈ gUnaryOps ∧ args.length = 1
            · rw [if_pos hu] at h
              obtain ⟨a, rfl⟩ : ∃ a, args = [a] := by
                match args, hu.2 with
                | [a], _ => exact ⟨a, rfl⟩
              dsimp only at h
              cases hA : createFormula fuel a with
              | error e => simp [hA] at h
              | ok va =>
                  simp only [hA, exBindOk, exMapOk, exPure] at h
                  injection h with h
                  subst h
                  simpa only [BF.primeFreeAtoms] using ih _ _ hA
            · rw [if_neg hu] at h
              by_cases ht : name ∈ gTelOps
              · rw [if_pos ht] at h
                cases hlast : args.getLast? with
                | none => simp [hlast] at h
                | some last =>
                    simp only [hlast] at h
                    cases hR : createFormula fuel last with
                    | error e => simp [hR] at h
                    | ok vr =>
                        simp only [hR, exBindOk] at h
                        have hvr : vr.primeFreeAtoms = true := ih _ _ hR
                        by_cases hp : name = "<" ∨ name = "<:"
                        · rw [if_pos hp] at h
                          rcases args with _ | ⟨a0, _ | ⟨a1, rest⟩⟩
                          · simp [List.getLast?] at hlast
                          · dsimp only at h
                            try simp only [exPure, exBindOk] at h
                            rw [if_neg (by norm_num)] at h
                            have hf := mkPrevOk h
                            subst hf
                            simpa only [BF.primeFreeAtoms] using hvr
                          · dsimp only at h
                            cases hN : createNumber (fuel + 1) a0 with
                            | error e => simp [hN] at h
                            | ok k =>
                                simp only [hN, exBindOk] at h
                                by_cases hk : k = 0
                                · rw [if_pos hk] at h
                                  simp only [exPure] at h
                                  injection h with h
                                  subst h
                                  exact hvr
                                · rw [if_neg hk] at h
                                  have hf := mkPrevOk h
                                  subst hf
                                  simpa only [BF.primeFreeAtoms] using hvr
                        · rw [if_neg hp] at h
                          by_cases hn : name = ">" ∨ name = ">:"
                          · rw [if_pos hn] at h
                            rcases args with _ | ⟨a0, _ | ⟨a1, rest⟩⟩
                            · simp [List.getLast?] at hlast
                            · dsimp only at h
                              try simp only [exPure, exBindOk] at h
                              rw [if_neg (by norm_num)] at h
                              have hf := mkNextOk h
                              subst hf
                              simpa only [BF.primeFreeAtoms] using hvr
                            · dsimp only at h
                              cases hN : createNumber (fuel + 1) a0 with
                              | error e => simp [hN] at h
                              | ok k =>
                                  simp only [hN, exBindOk] at h
                                  by_cases hk : k = 0
                                  · rw [if_pos hk] at h
                                    simp only [exPure] at h
                                    injection h with h
                                    subst h
                                    exact hvr
                                  · rw [if_neg hk] at h
                                    have hf := mkNextOk h
                                    subst hf
                                    simpa only [BF.primeFreeAtoms] using hvr
                          · rw [if_neg hn] at h
                            rcases args with _ | ⟨a0, _ | ⟨a1, rest⟩⟩
                            · simp [List.getLast?] at hlast
                            · dsimp only at h
                              try simp only [exPure, exBindOk] at h
                              exact telOpCombinePrimeFree h rfl hvr
                            · dsimp only at h
                              cases hA : createFormula fuel a0 with
                              | error e => simp [hA] at h
                              | ok va =>
                                  simp only [hA, exBindOk, exPure] at h
                                  exact telOpCombinePrimeFree h
                                    (by simpa only [OBF.primeFreeAtoms] using ih _ _ hA) hvr
              · rw [if_neg ht] at h
                by_cases ha : name = "&"
                · rw [if_pos ha] at h
                  cases hH : args.head? with
                  | none => simp [hH] at h
                  | some t0 =>
                      simp only [hH] at h
                      try dsimp only at h
                      cases t0 with
                      | sym aname =>
                          replace h :
                              (if aname = "initial" ∨ aname = "final" then
                                  mkAtom ("__" ++ aname) GSymList.nil true
                                else
                                  if aname = "true" ∨ aname = "false" then
                                    pure (BF.boolConst (decide (aname = "true")))
                                  else Except.error "unknown identifier") =
                                Except.ok f := h
                          by_cases hk : aname = "initial" ∨ aname = "final"
                          · rw [if_pos hk] at h
                            obtain ⟨hf, h1, h2⟩ := mkAtomOk h
                            subst hf
                            simp [BF.primeFreeAtoms, h1, h2]
                          · rw [if_neg hk] at h
                            by_cases hv : aname = "true" ∨ aname = "false"
                            · rw [if_pos hv] at h
                              simp only [exPure] at h
                              injection h with h
                              subst h
                              simp [BF.primeFreeAtoms]
                            · rw [if_neg hv] at h
                              simp at h
                      | num n => simp at h
                      | fn n as => simp at h
                      | tup as => simp at h
                      | lst as => simp at h
                      | set as => simp at h
                · rw [if_neg ha] at h
                  exact createAtomPrimeFree _ _ _ _ h
      | num n => simp [createFormula] at h
      | tup as => simp [createFormula] at h
      | lst as => simp [createFormula] at h
      | set as => simp [createFormula] at h

/-- C9: constructing a body `Atom` whose predicate name still begins or
ends with a prime raises a `RuntimeError` (pointing at the `<` / `>`
operators); consequently every atom reachable through `create_formula`
has a prime-free name. -/
theorem atomPrimeCheck :
    (∀ name args positive,
        (strStarts name primeStr = true ∨ strEnds name primeStr = true) →
        ∃ e, mkAtom name args positive = .error e) ∧
    (∀ fuel t f, createFormula fuel t = .ok f → f.primeFreeAtoms = true) := by
  refine ⟨?_, createFormulaPrimeFree⟩
  intro name args positive hpr
  by_cases hs : strStarts name primeStr = true
  · refine ⟨"temporal formulas use < instead of leading primes", ?_⟩
    simp [mkAtom, hs]
  · have he : strEnds name primeStr = true := hpr.resolve_left hs
    refine ⟨"temporal formulas use > instead of trailing primes", ?_⟩
    simp [mkAtom, hs, he]

/-- Witness for C9: the primed name built from `primeStr` is rejected by
the `Atom` constructor, and the formula built from the plain symbol `q`
contains only prime-free atoms. -/
theorem atomPrimeCheck_witness :
    (strStarts (primeStr ++ "p") primeStr = true ∨
      strEnds (primeStr ++ "p") primeStr = true) ∧
    (∃ e, mkAtom (primeStr ++ "p") GSymList.nil true = .error e) ∧
    (createFormula 1 (.sym "q") = .ok (.atom "q" .nil true)) ∧
    (BF.atom "q" .nil true).primeFreeAtoms = true :=
  ⟨Or.inl (by decide),
   atomPrimeCheck.1 (primeStr ++ "p") GSymList.nil true (Or.inl (by decide)),
   rfl,
   atomPrimeCheck.2 1 (.sym "q") (.atom "q" .nil true) rfl⟩

/-- Association lookup in the `Theory.__formulas` registry. -/
def regLookup : List (FRep × BF) → FRep → Option BF
  | [], _ => Option.none
  | (k, v) :: rest, key => if k = key then Option.some v else regLookup rest key

/-- Embedding of `Theory.add_formula` (theory/__init__.py lines 36-41):
`self.__formulas.setdefault(formula._rep, formula)` followed by returning
the entry.  Inserts the formula when its representation key is absent and
returns the registry entry for the key. -/
def addFormula (reg : List (FRep × BF)) (f : BF) : BF × List (FRep × BF) :=
  match regLookup reg f.rep with
  | Option.some g => (g, reg)
  | Option.none => (f, reg ++ [(f.rep, f)])

theorem regLookupAppendSelf {reg : List (FRep × BF)} {key : FRep} (v : BF)
    (h : regLookup reg key = Option.none) :
    regLookup (reg ++ [(key, v)]) key = Option.some v := by
  induction reg with
  | nil => simp [regLookup]
  | cons e rest ih =>
      obtain ⟨k, w⟩ := e
      by_cases hk : k = key
      · simp [regLookup, hk] at h
      · simp only [regLookup, if_neg hk] at h ⊢
        exact ih h

/-- C7: `Theory.add_formula` is idempotent on the canonical representation:
for two formulas with the same `_rep`, adding the second after the first
returns the registry object produced by the first call and leaves the
registry unchanged. -/
theorem addFormulaIdempotent (reg : List (FRep × BF)) (f g : BF)
    (h : f.rep = g.rep) :
    (addFormula (addFormula reg f).2 g).1 = (addFormula reg f).1 ∧
    (addFormula (addFormula reg f).2 g).2 = (addFormula reg f).2 := by
  unfold addFormula
  cases hl : regLookup reg f.rep with
  | some x => simp [← h, hl]
  | none => simp [← h, hl, regLookupAppendSelf f hl]

/-- Witness for C7 on the formula `&true` added twice to the empty
registry. -/
theorem addFormulaIdempotent_witness :
    (BF.boolConst true).rep = (BF.boolConst true).rep ∧
    (addFormula (addFormula [] (.boolConst true)).2 (.boolConst true)).1 =
      (addFormula [] (.boolConst true)).1 ∧
    (addFormula (addFormula [] (.boolConst true)).2 (.boolConst true)).2 =
      (addFormula [] (.boolConst true)).2 :=
  ⟨rfl, addFormulaIdempotent [] (.boolConst true) (.boolConst true) rfl⟩

/-- Embedding of `clingo.SolveResult` as consumed by the driver loop. -/
structure SolveResult where
  satisfiable : Bool
  unsatisfiable : Bool
  unknown : Bool

/-- Embedding of the while condition of `imain` (telingo/__init__.py lines
53-57), with the attribute reads of the previous solve result passed in
as the record `ret`. -/
def imainLoopCond (imax : Option Nat) (imin : Nat) (istop : String)
    (step : Nat) (ret : SolveResult) : Bool :=
  (match imax with
   | Option.none => true
   | Option.some m => decide (step < m)) &&
  (decide (step = 0) || decide (step < imin) ||
    ((istop == "SAT" && !ret.satisfiable) ||
     (istop == "UNSAT" && !ret.unsatisfiable) ||
     (istop == "UNKNOWN" && !ret.unknown)))

/-- Stop criterion as the specification words it: the solve result
satisfies the criterion selected by `istop`. -/
def stopMet (istop : String) (ret : SolveResult) : Bool :=
  if istop = "SAT" then ret.satisfiable
  else if istop = "UNSAT" then ret.unsatisfiable
  else ret.unknown

/-- C2: the driver iterates exactly while (`imax` unbounded or `step <
imax`) and (`step = 0`, or `step < imin`, or the previous result does not
meet the configured stop criterion); in particular the condition holds at
step 0 whenever `imax` permits, so at least one iteration runs. -/
theorem imainLoopCondSpec (imax : Option Nat) (imin : Nat) (istop : String)
    (step : Nat) (ret : SolveResult)
    (h : istop = "SAT" ∨ istop = "UNSAT" ∨ istop = "UNKNOWN") :
    (imainLoopCond imax imin istop step ret = true ↔
      ((imax = Option.none ∨ ∃ m, imax = Option.some m ∧ step < m) ∧
        (step = 0 ∨ step < imin ∨ stopMet istop ret = false))) ∧
    ((imax = Option.none ∨ ∃ m, imax = Option.some m ∧ 0 < m) →
      imainLoopCond imax imin istop 0 ret = true) := by
  rcases h with h | h | h <;> subst h <;>
    cases imax <;>
      constructor <;>
        simp [imainLoopCond, stopMet] <;>
          tauto

/-- Witness for C2 with `istop = "SAT"`, `imax = 3`, `imin = 0`, a
satisfiable previous result and `step = 1`. -/
theorem imainLoopCondSpec_witness :
    ("SAT" = "SAT" ∨ ("SAT":String) = "UNSAT" ∨ ("SAT":String) = "UNKNOWN") ∧
    ((imainLoopCond (Option.some 3) 0 "SAT" 1 ⟨true, false, false⟩ = true ↔
      ((Option.some 3 = Option.none ∨
          ∃ m, Option.some 3 = Option.some m ∧ 1 < m) ∧
        (1 = 0 ∨ 1 < 0 ∨ stopMet "SAT" ⟨true, false, false⟩ = false))) ∧
      ((Option.some 3 = Option.none ∨
          ∃ m, Option.some 3 = Option.some m ∧ 0 < m) →
        imainLoopCond (Option.some 3) 0 "SAT" 0 ⟨true, false, false⟩ = true)) :=
  ⟨Or.inl rfl,
   imainLoopCondSpec (Option.some 3) 0 "SAT" 1 ⟨true, false, false⟩ (Or.inl rfl)⟩

/-- Embedding of a `#program` directive as seen by
`ProgramTransformer.visit_Program`. -/
structure ProgramDirective where
  name : String
  parameters : List String

/-- Embedding of `ProgramTransformer.visit_Program`
(transformers/program.py lines 173-188): the final part becomes `always`
(with the final flag set), `base` is renamed to `initial`, and the two
time parameters are appended.  Returns the rewritten directive together
with the final flag. -/
def visitProgram (prg : ProgramDirective) : ProgramDirective × Bool :=
  let finalFlag := prg.name == "final"
  let n1 := if finalFlag then "always" else prg.name
  let n2 := if n1 == "base" then "initial" else n1
  ({ name := n2, parameters := prg.parameters ++ ["__t", "__u"] }, finalFlag)

/-- Embedding of the part-selection test of the driver loop
(telingo/__init__.py lines 60-64): a part rooted at `initial` is grounded
only when `step - i == 0`. -/
def partSelected (rootName : String) (step i : Int) : Bool :=
  (decide (step - i ≥ 0) && rootName == "always") ||
  (decide (step - i > 0) && rootName == "dynamic") ||
  (decide (step - i = 0) && rootName == "initial")

/-- C6: a `#program base` directive is rewritten to `#program initial`
with the two time parameters `__t`, `__u` appended, and the driver
grounds parts rooted at `initial` exactly when the grounding step equals
the offset, i.e. only at time step 0 of each window. -/
theorem baseBecomesInitial (prg : ProgramDirective) (h : prg.name = "base") :
    (visitProgram prg).1.name = "initial" ∧
    (visitProgram prg).1.parameters = prg.parameters ++ ["__t", "__u"] ∧
    (∀ step i : Int,
      partSelected (visitProgram prg).1.name step i = true ↔ step = i) := by
  obtain ⟨n, ps⟩ := prg
  simp only at h
  subst h
  refine ⟨rfl, rfl, ?_⟩
  intro step i
  simp [visitProgram, partSelected]
  omega

/-- Witness for C6 on the directive `#program base.`. -/
theorem baseBecomesInitial_witness :
    (ProgramDirective.mk "base" []).name = "base" ∧
    ((visitProgram ⟨"base", []⟩).1.name = "initial" ∧
      (visitProgram ⟨"base", []⟩).1.parameters = [] ++ ["__t", "__u"] ∧
      (∀ step i : Int,
        partSelected (visitProgram ⟨"base", []⟩).1.name step i = true ↔ step = i)) :=
  ⟨rfl, baseBecomesInitial ⟨"base", []⟩ rfl⟩

/-- Length of a symbol argument list. -/
def GSymList.length : GSymList → Nat
  | .nil => 0
  | .cons _ xs => 1 + GSymList.length xs

/-- Last element of a symbol argument list (`arguments[-1]`). -/
def GSymList.getLast? : GSymList → Option GSym
  | .nil => Option.none
  | .cons x .nil => Option.some x
  | .cons _ (GSymList.cons y ys) => GSymList.getLast? (.cons y ys)

/-- Embedding of `atom.symbol.arguments[-1].number` as read by the
assumption loop of `imain`: an `IndexError` on an empty argument list and
an attribute error on a non-number last argument become errors. -/
def symLastNumber : GSym → Except String Int
  | .func _ args _ =>
      match args.getLast? with
      | Option.some (.num k) => .ok k
      | Option.some _ => .error "attribute error: number"
      | Option.none => .error "IndexError"
  | _ => .error "attribute error: arguments"

/-- Signature test used by `symbolic_atoms.by_signature(name, arity,
positive)`. -/
def symMatchesSig (sym : GSym) (name : String) (arity : Nat) (positive : Bool) : Bool :=
  match sym with
  | .func n args p => n == name && args.length == arity && p == positive
  | _ => false

/-- Embedding of `prg.symbolic_atoms.by_signature`: the entries of the
symbol table with the given signature. -/
def bySignature (table : List (GSym × Int)) (name : String) (arity : Nat)
    (positive : Bool) : List (GSym × Int) :=
  table.filter fun e => symMatchesSig e.1 name arity positive

/-- Inner loop of the assumption computation of `imain` (lines 73-75):
for every atom of a signature, assume the negated literal when its last
argument exceeds the current step. -/
def atomsAssumptions (step : Int) : List (GSym × Int) → Except String (List Int)
  | [] => .ok []
  | (sym, lit) :: rest => do
      let k ← symLastNumber sym
      let tail ← atomsAssumptions step rest
      pure (if step < k then (-lit) :: tail else tail)

/-- Outer loop of the assumption computation of `imain` (lines 71-75):
iterate over the future signatures and collect the assumptions. -/
def computeAssumptions (table : List (GSym × Int)) (step : Int) :
    List (String × Nat × Bool) → Except String (List Int)
  | [] => .ok []
  | (name, arity, positive) :: rest => do
      let a ← atomsAssumptions step (bySignature table name arity positive)
      let b ← computeAssumptions table step rest
      pure (a ++ b)

theorem memAtomsAssumptions {step : Int} {x : Int} :
    ∀ {l : List (GSym × Int)} {r : List Int}, atomsAssumptions step l = .ok r →
      (x ∈ r ↔ ∃ sym lit k, (sym, lit) ∈ l ∧ symLastNumber sym = .ok k ∧
        step < k ∧ x = -lit) := by
  intro l
  induction l with
  | nil =>
      intro r h
      simp only [atomsAssumptions] at h
      injection h with h
      subst h
      simp
  | cons e rest ih =>
      intro r h
      obtain ⟨sym, lit⟩ := e
      simp only [atomsAssumptions] at h
      cases hk : symLastNumber sym with
      | error e => simp [hk] at h
      | ok k =>
          rw [hk] at h
          simp only [exBindOk] at h
          cases ht : atomsAssumptions step rest with
          | error e => simp [ht] at h
          | ok tail =>
              rw [ht] at h
              simp only [exBindOk, exPure] at h
              injection h with h
              subst h
              have htail := ih ht
              by_cases hs : step < k
              · rw [if_pos hs]
                constructor
                · intro hx
                  rcases List.mem_cons.mp hx with rfl | hx
                  · exact ⟨sym, lit, k, List.mem_cons_self _ _, hk, hs, rfl⟩
                  · obtain ⟨s₂, l₂, k₂, hm, hn, hsk, hx2⟩ := htail.mp hx
                    exact ⟨s₂, l₂, k₂, List.mem_cons_of_mem _ hm, hn, hsk, hx2⟩
                · rintro ⟨s₂, l₂, k₂, hm, hn, hsk, rfl⟩
                  rcases List.mem_cons.mp hm with he | hm
                  · injection he with h1 h2
                    subst h1; subst h2
                    rw [hk] at hn
                    injection hn with hn
                    subst hn
                    exact List.mem_cons_self _ _
                  · exact List.mem_cons_of_mem _
                      (htail.mpr ⟨s₂, l₂, k₂, hm, hn, hsk, rfl⟩)
              · rw [if_neg hs, htail]
                constructor
                · rintro ⟨s₂, l₂, k₂, hm, hn, hsk, hx2⟩
                  exact ⟨s₂, l₂, k₂, List.mem_cons_of_mem _ hm, hn, hsk, hx2⟩
                · rintro ⟨s₂, l₂, k₂, hm, hn, hsk, rfl⟩
                  rcases List.mem_cons.mp hm with he | hm
                  · injection he with h1 h2
                    subst h1; subst h2
                    rw [hk] at hn
                    injection hn with hn
                    subst hn
                    exact absurd hsk hs
                  · exact ⟨s₂, l₂, k₂, hm, hn, hsk, rfl⟩

/-- C3: an integer is passed as an assumption exactly when it is the
negated literal of a symbolic atom whose signature is among the future
signatures and whose last argument is a number greater than the current
step; in particular atoms whose last argument is at or before the step
contribute no assumption. -/
theorem futureAssumptionsSpec (sigs : List (String × Nat × Bool))
    (table : List (GSym × Int)) (step : Int) (asm : List Int)
    (h : computeAssumptions table step sigs = .ok asm) :
    ∀ x, x ∈ asm ↔ ∃ name arity positive sym lit k,
      (name, arity, positive) ∈ sigs ∧ (sym, lit) ∈ table ∧
      symMatchesSig sym name arity positive = true ∧
      symLastNumber sym = .ok k ∧ step < k ∧ x = -lit := by
  induction sigs generalizing asm with
  | nil =>
      simp only [computeAssumptions] at h
      injection h with h
      subst h
      simp
  | cons sig rest ih =>
      obtain ⟨name, arity, positive⟩ := sig
      simp only [computeAssumptions] at h
      cases ha : atomsAssumptions step (bySignature table name arity positive) with
      | error e => simp [ha] at h
      | ok a =>
          rw [ha] at h
          simp only [exBindOk] at h
          cases hb : computeAssumptions table step rest with
          | error e => simp [hb] at h
          | ok b =>
              rw [hb] at h
              simp only [exBindOk, exPure] at h
              injection h with h
              subst h
              intro x
              have hmem := memAtomsAssumptions (x := x) ha
              have hrest := ih b hb
              constructor
              · intro hx
                rcases List.mem_append.mp hx with hxa | hxb
                · obtain ⟨s, l, k, hm, hn, hsk, hx2⟩ := hmem.mp hxa
                  have hm₂ := List.mem_filter.mp hm
                  exact ⟨name, arity, positive, s, l, k, List.mem_cons_self _ _,
                    hm₂.1, hm₂.2, hn, hsk, hx2⟩
                · obtain ⟨n₂, a₂, p₂, s, l, k, hs2, hm, hmm, hn, hsk, hx2⟩ :=
                    (hrest x).mp hxb
                  exact ⟨n₂, a₂, p₂, s, l, k, List.mem_cons_of_mem _ hs2, hm,
                    hmm, hn, hsk, hx2⟩
              · rintro ⟨n₂, a₂, p₂, s, l, k, hs2, hm, hmm, hn, hsk, rfl⟩
                rcases List.mem_cons.mp hs2 with he | hs2
                · injection he with h1 h23
                  injection h23 with h2 h3
                  subst h1; subst h2; subst h3
                  exact List.mem_append.mpr (Or.inl (hmem.mpr
                    ⟨s, l, k, List.mem_filter.mpr ⟨hm, hmm⟩, hn, hsk, rfl⟩))
                · exact List.mem_append.mpr (Or.inr ((hrest _).mpr
                    ⟨n₂, a₂, p₂, s, l, k, hs2, hm, hmm, hn, hsk, rfl⟩))

/-- Witness for C3: one future signature, one future atom (last argument
1 above step 0) assumed negatively and one current atom (last argument 0)
not assumed. -/
theorem futureAssumptionsSpec_witness :
    computeAssumptions
        [(GSym.func "__future_p" (.cons (.num 1) (.cons (.num 1) .nil)) true, 3),
         (GSym.func "__future_p" (.cons (.num 1) (.cons (.num 0) .nil)) true, 4)]
        0 [("__future_p", 2, true)] = .ok [-3] ∧
    ((-3) ∈ [(-3 : Int)] ↔ ∃ name arity positive sym lit k,
      (name, arity, positive) ∈ [("__future_p", 2, true)] ∧
      (sym, lit) ∈
        [(GSym.func "__future_p" (.cons (.num 1) (.cons (.num 1) .nil)) true, 3),
         (GSym.func "__future_p" (.cons (.num 1) (.cons (.num 0) .nil)) true, 4)] ∧
      symMatchesSig sym name arity positive = true ∧
      symLastNumber sym = .ok k ∧ (0:Int) < k ∧ (-3:Int) = -lit) :=
  ⟨rfl,
   futureAssumptionsSpec [("__future_p", 2, true)]
     [(GSym.func "__future_p" (.cons (.num 1) (.cons (.num 1) .nil)) true, 3),
      (GSym.func "__future_p" (.cons (.num 1) (.cons (.num 0) .nil)) true, 4)]
     0 [-3] rfl (-3)⟩

/-- Terms appended as time arguments by the term transformer: the time
parameter `__t`, a number constant, or a binary plus of a term and a
number. -/
inductive TTerm where
  | timeParam
  | numTerm (k : Int)
  | plusTerm (t : TTerm) (k : Int)
deriving DecidableEq, Repr

/-- First-character test on a name (Python `startswith` with a single
character). -/
def listStarts (l : List Char) (c : Char) : Bool :=
  match l with
  | x :: _ => x == c
  | [] => false

/-- First-two-characters test on a name (Python `startswith` with a
doubled character). -/
def listStarts2 (l : List Char) (c : Char) : Bool :=
  match l with
  | x :: y :: _ => x == c && y == c
  | _ => false

/-- Last-character test on a name. -/
def listEnds (l : List Char) (c : Char) : Bool :=
  match l.reverse with
  | x :: _ => x == c
  | [] => false

/-- Last-two-characters test on a name. -/
def listEnds2 (l : List Char) (c : Char) : Bool :=
  match l.reverse with
  | x :: y :: _ => x == c && y == c
  | _ => false

/-- Python `name.strip("'")`: remove primes from both ends. -/
def stripPrimes (l : List Char) : List Char :=
  ((l.dropWhile (· == primeChar)).reverse.dropWhile (· == primeChar)).reverse

/-- Number of leading primes (the counting loop of `__get_param`). -/
def leadPrimes (l : List Char) : Nat := (l.takeWhile (· == primeChar)).length

/-- Python list assignment `params[-1] = f(params[-1])`. -/
def setLast : List TTerm → (TTerm → TTerm) → List TTerm
  | [], _ => []
  | [x], f => [f x]
  | x :: xs, f => x :: setLast xs f

/-- Shift computed by the prime-counting loop of
`TermTransformer.__get_param`: with the loop contributing minus the
number of leading primes and the final `shift += len(name) - len(n) +
shift` line. -/
def telShift (name : List Char) : Int :=
  -(leadPrimes name : Int) +
    ((name.length : Int) - ((stripPrimes name).length : Int)) +
    -(leadPrimes name : Int)

/-- Embedding of `TermTransformer.__get_param` (transformers/term.py lines
36-120).  Names are lists of characters; `positive` is the transformer's
classical-sign state.  Returns the updated predicate name, the time
arguments to append, the updated `max_shift` and the updated set of
future predicates.  The `or finally_` disjunct of the future check in the
source is dead code (the finally branch always raises beforehand) and is
therefore dropped here. -/
def getParam (name : List Char) (arity : Nat)
    (replaceFuture failFuture failPast positive : Bool)
    (maxShift : Int) (futurePreds : List (List Char × Nat × Bool × Int)) :
    Except String
      (List Char × List TTerm × Int × List (List Char × Nat × Bool × Int)) :=
  let n0 := stripPrimes name
  let shift : Int := telShift name
  do
  let pair ←
    (if listStarts n0 '_' = true ∧ listStarts2 n0 '_' = false then
      let n1 := n0.tail
      if listStarts n1 primeChar = true ∨ listStarts name primeChar = true ∨
          listEnds name primeChar = true then
        .error "initially operator cannot be used with primes"
      else .ok (n1, true)
    else .ok (n0, false) :
      Except String (List Char × Bool))
  let n1 := pair.1
  let initially := pair.2
  if listEnds n1 '_' = true ∧ listEnds2 n1 '_' = false then
    let n2 := n1.dropLast
    if listEnds n2 primeChar = true ∨ listStarts name primeChar = true ∨
        listEnds name primeChar = true then
      .error "finally operator cannot be used with primes"
    else .error "finally operator not yet supported"
  else
    let params := [TTerm.timeParam]
    if failFuture = true ∧ shift > 0 then
      .error "future atoms not supported in this context"
    else if failPast = true ∧ (shift < 0 ∨ initially = true) then
      .error "past atoms not supported in this context"
    else
      let res :=
        if shift > 0 then
          if replaceFuture then
            let fp := (n1, arity, positive, shift)
            let futurePreds₂ :=
              if fp ∈ futurePreds then futurePreds else futurePreds ++ [fp]
            (('_' :: '_' :: "future_".data) ++ n1, TTerm.numTerm shift :: params,
              maxShift, futurePreds₂)
          else (n1, params, max maxShift shift, futurePreds)
        else (n1, params, maxShift, futurePreds)
      let params₂ :=
        if shift ≠ 0 then setLast res.2.1 (fun t => TTerm.plusTerm t shift)
        else if initially = true then setLast res.2.1 (fun _ => TTerm.numTerm 0)
        else res.2.1
      .ok (res.1, params₂, res.2.2.1, res.2.2.2)

theorem dropWhilePrimeReplicate (k : Nat) (l : List Char) :
    List.dropWhile (· == primeChar) (List.replicate k primeChar ++ l) =
      List.dropWhile (· == primeChar) l := by
  induction k with
  | zero => simp
  | succ k ih => simpa [List.replicate_succ, List.dropWhile_cons] using ih

theorem takeWhilePrimeReplicate (k : Nat) (l : List Char) :
    List.takeWhile (· == primeChar) (List.replicate k primeChar ++ l) =
      List.replicate k primeChar ++ List.takeWhile (· == primeChar) l := by
  induction k with
  | zero => simp
  | succ k ih => simpa [List.replicate_succ, List.takeWhile_cons] using ih

theorem dropWhileNotPrimeHead {core : List Char} (hc : core ≠ [])
    (hp : primeChar ∉ core) (l : List Char) :
    List.dropWhile (· == primeChar) (core ++ l) = core ++ l := by
  cases core with
  | nil => exact absurd rfl hc
  | cons c cs =>
      have hcp : (c == primeChar) = false := by
        simp only [beq_eq_false_iff_ne, ne_eq]
        intro hcc
        exact hp (by simp [hcc])
      simp [List.dropWhile_cons, hcp]

theorem takeWhileNotPrimeHead {core : List Char} (hc : core ≠ [])
    (hp : primeChar ∉ core) (l : List Char) :
    List.takeWhile (· == primeChar) (core ++ l) = [] := by
  cases core with
  | nil => exact absurd rfl hc
  | cons c cs =>
      have hcp : (c == primeChar) = false := by
        simp only [beq_eq_false_iff_ne, ne_eq]
        intro hcc
        exact hp (by simp [hcc])
      simp [List.takeWhile_cons, hcp]

theorem dropWhileNotPrimeAll {core : List Char} (hc : core ≠ [])
    (hp : primeChar ∉ core) :
    List.dropWhile (· == primeChar) core = core := by
  simpa using dropWhileNotPrimeHead hc hp []

theorem stripPrimesShape (a b : Nat) (core : List Char) (hc : core ≠ [])
    (hp : primeChar ∉ core) :
    stripPrimes (List.replicate a primeChar ++ core ++ List.replicate b primeChar)
      = core := by
  unfold stripPrimes
  rw [List.append_assoc, dropWhilePrimeReplicate,
    dropWhileNotPrimeHead hc hp, List.reverse_append, List.reverse_replicate,
    dropWhilePrimeReplicate,
    dropWhileNotPrimeAll (by simpa using hc) (by simpa using hp),
    List.reverse_reverse]

theorem leadPrimesShape (a b : Nat) (core : List Char) (hc : core ≠ [])
    (hp : primeChar ∉ core) :
    leadPrimes (List.replicate a primeChar ++ core ++ List.replicate b primeChar)
      = a := by
  unfold leadPrimes
  rw [List.append_assoc, takeWhilePrimeReplicate, takeWhileNotPrimeHead hc hp]
  simp

theorem listStartsPrimeFalse {core : List Char} (hp : primeChar ∉ core) :
    listStarts core primeChar = false := by
  cases core with
  | nil => rfl
  | cons c cs =>
      simp only [listStarts, beq_eq_false_iff_ne, ne_eq]
      intro hcc
      exact hp (by simp [hcc])

theorem listEndsPrimeFalse {core : List Char} (hp : primeChar ∉ core) :
    listEnds core primeChar = false := by
  unfold listEnds
  cases hr : core.reverse with
  | nil => rfl
  | cons c cs =>
      simp only [beq_eq_false_iff_ne, ne_eq]
      intro hcc
      have : c ∈ core := by
        rw [← List.mem_reverse, hr]
        simp
      exact hp (hcc ▸ this)

theorem telShiftShape (a b : Nat) (core : List Char) (hc : core ≠ [])
    (hp : primeChar ∉ core) :
    telShift (List.replicate a primeChar ++ core ++ List.replicate b primeChar)
      = (b : Int) - a := by
  unfold telShift
  rw [stripPrimesShape a b core hc hp, leadPrimesShape a b core hc hp]
  simp only [List.length_append, List.length_replicate]
  push_cast
  ring


/-- C8: on a function name made of a leading primes, a prime-free core and b
trailing primes, the term transformer computes the shift b - a and the last
time parameter it appends is the plain time parameter when b - a = 0 and
time + (b - a) otherwise; on an initially-prefixed name the appended time
argument is the constant 0. -/
theorem getParamShiftSpec (a b : Nat) (core : List Char) (arity : Nat)
    (replaceFuture failFuture failPast positive : Bool)
    (maxShift : Int) (futurePreds : List (List Char × Nat × Bool × Int))
    (hc : core ≠ []) (hp : primeChar ∉ core)
    (hu1 : listStarts core '_' = true → listStarts2 core '_' = true)
    (hu2 : listEnds core '_' = true → listEnds2 core '_' = true) :
    ((failFuture = true → (b : Int) - a ≤ 0) →
     (failPast = true → (0 : Int) ≤ (b : Int) - a) →
      ∃ outName outParams outMax outPreds,
        getParam (List.replicate a primeChar ++ core ++ List.replicate b primeChar)
            arity replaceFuture failFuture failPast positive maxShift futurePreds =
          .ok (outName, outParams, outMax, outPreds) ∧
        outParams.getLast? = Option.some
          (if (b : Int) - a = 0 then TTerm.timeParam
           else TTerm.plusTerm TTerm.timeParam ((b : Int) - a))) ∧
    (listStarts core '_' = false → failPast = false →
      ∃ outParams outMax outPreds,
        getParam ('_' :: core) arity replaceFuture failFuture failPast positive
            maxShift futurePreds = .ok (core, outParams, outMax, outPreds) ∧
        outParams.getLast? = Option.some (TTerm.numTerm 0)) := by
  constructor
  · intro hff hfp
    have hstrip := stripPrimesShape a b core hc hp
    have hshift := telShiftShape a b core hc hp
    have hcond1 : ¬(listStarts core '_' = true ∧ listStarts2 core '_' = false) := by
      rintro ⟨x, y⟩
      rw [hu1 x] at y
      simp at y
    have hcond2 : ¬(listEnds core '_' = true ∧ listEnds2 core '_' = false) := by
      rintro ⟨x, y⟩
      rw [hu2 x] at y
      simp at y
    have hcond3 : ¬(failFuture = true ∧ (b : Int) - a > 0) := by
      rintro ⟨x, y⟩
      have := hff x
      omega
    have hcond4 : ¬(failPast = true ∧ ((b : Int) - a < 0 ∨ false = true)) := by
      rintro ⟨x, y⟩
      have := hfp x
      rcases y with y | y
      · omega
      · simp at y
    rcases lt_trichotomy ((b : Int) - a) 0 with hlt | heq | hgt
    · have h4 : ¬(failPast = true ∧ b < a) := by
        rintro ⟨x, y⟩
        have := hfp x
        omega
      simp only [getParam, hstrip, hshift]
      simp [hcond1, hcond2, hcond3, hcond4, h4, setLast,
        (show ¬((b : Int) - a > 0) by omega), (show (b : Int) - a ≠ 0 by omega)]
      exact ⟨_, _, ⟨rfl, rfl⟩, rfl⟩
    · simp only [getParam, hstrip, hshift]
      simp [hcond1, hcond2, hcond3, hcond4, setLast, heq]
      exact ⟨_, _, ⟨rfl, rfl⟩, rfl⟩
    · have h3 : ¬failFuture = true := by
        intro x
        have := hff x
        omega
      have h4 : ¬(failPast = true ∧ b < a) := by
        rintro ⟨x, y⟩
        omega
      by_cases hrf : replaceFuture = true
      · simp only [getParam, hstrip, hshift]
        simp [hcond1, hcond2, hcond3, hcond4, h3, h4, setLast, hrf, hgt,
          (show (b : Int) - a ≠ 0 by omega)]
        exact ⟨_, _, ⟨rfl, rfl⟩, rfl⟩
      · simp only [getParam, hstrip, hshift]
        simp [hcond1, hcond2, hcond3, hcond4, h3, h4, setLast, hrf, hgt,
          (show (b : Int) - a ≠ 0 by omega)]
        exact ⟨_, _, ⟨rfl, rfl⟩, rfl⟩
  · intro hus hfpf
    have hp2 : primeChar ∉ ('_' :: core) := by
      intro h
      rcases List.mem_cons.mp h with h | h
      · exact absurd h (by decide)
      · exact hp h
    have hstrip : stripPrimes ('_' :: core) = '_' :: core := by
      have := stripPrimesShape 0 0 ('_' :: core) (by simp) hp2
      simpa using this
    have hshift : telShift ('_' :: core) = 0 := by
      have := telShiftShape 0 0 ('_' :: core) (by simp) hp2
      simpa using this
    have hs1 : listStarts ('_' :: core) '_' = true := by simp [listStarts]
    have hs2 : listStarts2 ('_' :: core) '_' = false := by
      cases core with
      | nil => rfl
      | cons y t =>
          simp only [listStarts2]
          simp only [listStarts] at hus
          simp [hus]
    have hpc1 : listStarts core primeChar = false := listStartsPrimeFalse hp
    have hpc2 : listStarts ('_' :: core) primeChar = false := listStartsPrimeFalse hp2
    have hpc3 : listEnds ('_' :: core) primeChar = false := listEndsPrimeFalse hp2
    have hcond2 : ¬(listEnds core '_' = true ∧ listEnds2 core '_' = false) := by
      rintro ⟨x, y⟩
      rw [hu2 x] at y
      simp at y
    simp only [getParam, hstrip, hshift]
    simp [hs1, hs2, hpc1, hpc2, hpc3, hcond2, hfpf, setLast]

/-- C8 witness: concrete instance with one trailing prime and the initially prefix. -/
theorem getParamShiftSpec_witness :
    (primeChar ∉ (['p'] : List Char)) ∧
    (∃ outName outParams outMax outPreds,
      getParam (List.replicate 0 primeChar ++ ['p'] ++ List.replicate 1 primeChar)
          1 false false false false 0 [] = .ok (outName, outParams, outMax, outPreds) ∧
      outParams.getLast? = Option.some
        (if ((1 : Nat) : Int) - ((0 : Nat) : Int) = 0 then TTerm.timeParam
         else TTerm.plusTerm TTerm.timeParam (((1 : Nat) : Int) - ((0 : Nat) : Int)))) ∧
    (∃ outParams outMax outPreds,
      getParam ('_' :: ['p']) 1 false false false false 0 [] =
        .ok (['p'], outParams, outMax, outPreds) ∧
      outParams.getLast? = Option.some (TTerm.numTerm 0)) :=
  ⟨by decide,
   (getParamShiftSpec 0 1 ['p'] 1 false false false false 0 []
      (by decide) (by decide) (by decide) (by decide)).1 (by simp) (by simp),
   (getParamShiftSpec 0 1 ['p'] 1 false false false false 0 []
      (by decide) (by decide) (by decide) (by decide)).2 (by decide) rfl⟩

/-! ### Backend state and `Next.do_translate` (src/telingo/theory/body.py) -/

/-- Truth values passed to `backend.add_external` in body.py
(`_clingo.TruthValue`: `True_`, `False_`, `Free`). -/
inductive TruthVal where
  | tvTrue
  | tvFalse
  | tvFree
deriving DecidableEq, Repr

/-- The observable state of the clingo backend: the next fresh atom returned
by `add_atom`, the rules added by `add_rule(head, body, choice)`, and the
literals declared by `add_external` with their truth values. -/
structure Backend where
  nextAtom : Int
  rules : List (List Int × List Int × Bool)
  exts : List (Int × TruthVal)
deriving DecidableEq, Repr

/-- `backend.add_atom()`: returns a fresh atom and the updated backend. -/
def Backend.add_atom (b : Backend) : Int × Backend :=
  (b.nextAtom, { b with nextAtom := b.nextAtom + 1 })

/-- `backend.add_rule(head, body, choice)`: records the rule. -/
def Backend.add_rule (b : Backend) (head body : List Int) (choice : Bool) :
    Backend :=
  { b with rules := b.rules ++ [(head, body, choice)] }

/-- `backend.add_external(lit, tv)`: records the external declaration. -/
def Backend.addExt (b : Backend) (lit : Int) (tv : TruthVal) : Backend :=
  { b with exts := b.exts ++ [(lit, tv)] }

/-- `make_equal(backend, a, b)` from formula.py lines 9-19: adds the two
clauses `:- a, not b` and `:- not a, b` (backend literals, so negation is
integer negation). -/
def make_equal (b : Backend) (a c : Int) : Backend :=
  (b.add_rule [] [a, -c] false).add_rule [] [-a, c] false

/-- The slice of the `Context`/`Theory` state that `Next.do_translate`
touches: the backend, the horizon, and the todo queue of `Theory.add_todo`
with its key set (formulas identified by their unique `_rep`). -/
structure Ctx where
  backend : Backend
  horizon : Nat
  todoKeys : List (Nat × FRep)
  todoList : List (Nat × FRep)
deriving DecidableEq, Repr

/-- `Theory.add_todo(formula, step)` (theory/__init__.py lines 43-54):
appends `(step, formula)` to the todo queue unless the key is present. -/
def Ctx.add_todo (ctx : Ctx) (rep : FRep) (step : Nat) : Ctx :=
  if (step, rep) ∈ ctx.todoKeys then ctx
  else { ctx with
    todoKeys := ctx.todoKeys ++ [(step, rep)],
    todoList := ctx.todoList ++ [(step, rep)] }

/-- `StepData` (body.py lines 14-52): per-step translation data of a body
formula. -/
structure StepData where
  literal : Option Int
  literals : List Int
  todo : List Int
  done : Bool
deriving DecidableEq, Repr

/-- Shallow embedding of `Next.do_translate` (body.py lines 454-474) for a
next formula with representation `rep`, lookahead `n` and weakness flag
`weak`.  The recursive translation of the argument formula is abstracted by
`argT`, which returns the argument's literal and the context as updated by
that translation (`self.__arg.translate(ctx, step + self.__n)`).  The Python
assertion `step in range(0, ctx.horizon + 1)` becomes an error value. -/
def nextDoTranslate (rep : FRep) (n : Nat) (weak : Bool)
    (argT : Nat → Ctx → Int × Ctx)
    (step : Nat) (ctx : Ctx) (data : StepData) :
    Except String (Ctx × StepData) :=
  match data.literal with
  | none =>
      if step ≤ ctx.horizon then
        if step + n ≤ ctx.horizon then
          match argT (step + n) ctx with
          | (lit, ctx₂) =>
              .ok (ctx₂, { data with literal := some lit, done := true })
        else
          match ctx.backend.add_atom with
          | (lit, b₂) =>
              let b₃ := b₂.addExt lit (if weak then .tvTrue else .tvFalse)
              .ok (({ ctx with backend := b₃ }).add_todo rep step,
                { data with literal := some lit, done := false })
      else .error "assertion failed"
  | some lit =>
      if data.done then .ok (ctx, data)
      else
        if step ≤ ctx.horizon then
          if step + n ≤ ctx.horizon then
            match argT (step + n) ctx with
            | (arg, ctx₂) =>
                let b₂ := (make_equal ctx₂.backend lit arg).addExt lit .tvFree
                .ok ({ ctx₂ with backend := b₂ }, { data with done := true })
          else .ok (ctx.add_todo rep step, data)
        else .error "assertion failed"

/-- C4: the three phases of translating a body formula `Next(n, a, weak)` at
step `s`: covered (`s + n` within the horizon: the primary literal is the
argument's literal at `s + n` and the step data is done), deferred (`s + n`
beyond the horizon: a fresh external literal, true for weak and false for
strong, the pair pushed on the todo queue, not done), and re-translation
(deferred literal revisited within the horizon: two binary clauses equate it
with the argument's literal, the external is released to Free, done). -/
theorem nextDoTranslateSpec (rep : FRep) (n : Nat) (weak : Bool)
    (argT : Nat → Ctx → Int × Ctx) (step : Nat) (ctx : Ctx) (data : StepData)
    (al : Int) (ctx₂ : Ctx) (hA : argT (step + n) ctx = (al, ctx₂))
    (hstep : step ≤ ctx.horizon) :
    (data.literal = none → step + n ≤ ctx.horizon →
      nextDoTranslate rep n weak argT step ctx data =
        .ok (ctx₂, { data with literal := some al, done := true })) ∧
    (data.literal = none → ctx.horizon < step + n →
     (step, rep) ∉ ctx.todoKeys →
      nextDoTranslate rep n weak argT step ctx data =
        .ok ({ backend :=
                 { nextAtom := ctx.backend.nextAtom + 1,
                   rules := ctx.backend.rules,
                   exts := ctx.backend.exts ++
                     [(ctx.backend.nextAtom,
                       if weak then TruthVal.tvTrue else TruthVal.tvFalse)] },
               horizon := ctx.horizon,
               todoKeys := ctx.todoKeys ++ [(step, rep)],
               todoList := ctx.todoList ++ [(step, rep)] },
             { data with literal := some ctx.backend.nextAtom, done := false })) ∧
    (∀ l : Int, data.literal = some l → data.done = false →
     step + n ≤ ctx.horizon →
      nextDoTranslate rep n weak argT step ctx data =
        .ok ({ ctx₂ with backend :=
                 { nextAtom := ctx₂.backend.nextAtom,
                   rules := ctx₂.backend.rules ++
                     [([], [l, -al], false), ([], [-l, al], false)],
                   exts := ctx₂.backend.exts ++ [(l, TruthVal.tvFree)] } },
             { data with done := true })) := by
  refine ⟨?_, ?_, ?_⟩
  · intro hl hcov
    simp [nextDoTranslate, hl, hA, hstep, hcov]
  · intro hl hdef hkey
    simp [nextDoTranslate, hl, hstep, (show ¬(step + n ≤ ctx.horizon) by omega),
      Backend.add_atom, Backend.addExt, Ctx.add_todo, hkey]
  · intro l hl hdone hcov
    simp [nextDoTranslate, hl, hdone, hA, hstep, hcov, make_equal,
      Backend.add_rule, Backend.addExt]

/-- A concrete argument-translation oracle for the C4 witness: literal 42,
context unchanged. -/
def argTW : Nat → Ctx → Int × Ctx := fun _ c => (42, c)

/-- A concrete context for the C4 witness: fresh atom counter 5, horizon 1,
empty todo queue. -/
def ctxW : Ctx := ⟨⟨5, [], []⟩, 1, [], []⟩

/-- C4 witness: the three phases at concrete inputs. -/
theorem nextDoTranslateSpec_witness :
    (argTW (0 + 1) ctxW = (42, ctxW) ∧ (0 : Nat) ≤ ctxW.horizon) ∧
    (nextDoTranslate (FRep.ofStr "(1>a)") 1 false argTW 0 ctxW
        ⟨none, [], [], true⟩ =
      .ok (ctxW, ⟨some 42, [], [], true⟩)) ∧
    (nextDoTranslate (FRep.ofStr "(1>a)") 1 false argTW 1 ctxW
        ⟨none, [], [], true⟩ =
      .ok ({ backend := { nextAtom := 6, rules := [],
                          exts := [(5, TruthVal.tvFalse)] },
             horizon := 1,
             todoKeys := [(1, FRep.ofStr "(1>a)")],
             todoList := [(1, FRep.ofStr "(1>a)")] },
           ⟨some 5, [], [], false⟩)) ∧
    (nextDoTranslate (FRep.ofStr "(1>a)") 1 false argTW 0 ctxW
        ⟨some 7, [], [], false⟩ =
      .ok ({ ctxW with backend :=
               { nextAtom := 5,
                 rules := [([], [7, -42], false), ([], [-7, 42], false)],
                 exts := [(7, TruthVal.tvFree)] } },
           ⟨some 7, [], [], true⟩)) := by
  refine ⟨⟨rfl, by decide⟩, ?_, ?_, ?_⟩
  · exact (nextDoTranslateSpec (FRep.ofStr "(1>a)") 1 false argTW 0 ctxW
      ⟨none, [], [], true⟩ 42 ctxW rfl (by decide)).1 rfl (by decide)
  · exact (nextDoTranslateSpec (FRep.ofStr "(1>a)") 1 false argTW 1 ctxW
      ⟨none, [], [], true⟩ 42 ctxW rfl (by decide)).2.1 rfl (by decide) (by decide)
  · exact (nextDoTranslateSpec (FRep.ofStr "(1>a)") 1 false argTW 0 ctxW
      ⟨some 7, [], [], false⟩ 42 ctxW rfl (by decide)).2.2 7 rfl rfl (by decide)

/-! ### `HeadTransformer.transform` (src/telingo/transformers/head.py) -/

/-- Shallow embedding of `HeadTransformer.transform`
(src/telingo/transformers/head.py, lines 683-706).  The method body consists
of a `TODO: reimplement` comment followed by a single string literal (the
former implementation, turned into an inert docstring) and no return
statement, so the call evaluates that string, discards it, and returns
Python `None` for every theory atom — never a pair of an auxiliary literal
and rewritten statements.  `numAux` is the transformer's `__num_aux`
counter, which the stub leaves untouched. -/
def headTransformerTransform (numAux : Nat) (atom : TheoryTerm) :
    Option ((Nat × TheoryTerm) × List TheoryTerm) :=
  none

/-- C1: for every theory atom in a rule head, the head transformer's
transform operation returns Python None instead of the claimed pair of an
auxiliary literal and a list of rewritten statements; the caller
`ProgramTransformer.visit_TheoryAtom` unpacks the result as a pair, so the
rewriting crashes. -/
theorem headTransformStub (numAux : Nat) (atom : TheoryTerm) :
    headTransformerTransform numAux atom = none ∧
    ∀ lit stmts, headTransformerTransform numAux atom ≠ some (lit, stmts) := by
  exact ⟨rfl, fun _ _ h => Option.noConfusion h⟩
